import Mathlib

/-!
Shallow embedding of the core of `gsm_tools_helper` (an incremental Excel →
Parquet batch extractor written in Rust) together with proofs about its
change-detection cache, auto-tuning, orchestration and typed-column pipeline.

Conventions of the embedding:
* Rust `u64`/`usize` sizes and counts become `Nat`; `i64` becomes `Int`
  (with explicit `[-2^63, 2^63-1]` range facts where the claim needs them).
* Rust `f64` values are represented by their exact rational value when finite
  (`FloatV.finite q`); every finite IEEE double is a rational, so universally
  quantified statements over `ℚ` cover all doubles.  `f64` arithmetic the
  claims depend on (fract-test, the `i64` bound test, the saturating
  `as i64` cast) is modelled exactly on those rationals.
* `BTreeMap`/`HashMap` become association lists with replace-on-insert
  (`mapInsert`) and first-match lookup (`mapLookup`); they are used with
  distinct keys, matching the Rust map invariants.
* Filesystem effects (the parquet map file, the set of parquet files on disk,
  the `current_parquet.txt` pointer, the persisted manifest) become explicit
  state threaded through the orchestration functions; extractor success or
  failure per input is an explicit parameter (`exOk`), since the claims
  quantify over both outcomes.
-/

namespace Gsm

/-! ## Data model (src/types.rs, src/hw.rs, src/autotune.rs) -/

/-- `RunMode` from src/types.rs. -/
inductive RunMode
  | Single
  | Multi
  deriving DecidableEq

/-- `FileStamp` from src/types.rs; `path` is the lossy string key used by
`diff_files` and the tsv map. -/
structure FileStamp where
  path : String
  size : Nat
  mtime_unix_ms : Int
  quick_hash : String
  deriving DecidableEq

/-- `CacheMeta` from src/types.rs; the `BTreeMap<String, FileStamp>` is an
association list with unique keys. -/
structure CacheMeta where
  dataset : String
  mode : RunMode
  stamps : List (String × FileStamp)
  deriving DecidableEq

/-- `DiskKind` from src/hw.rs. -/
inductive DiskKind
  | Hdd
  | Ssd
  | Unknown
  deriving DecidableEq

/-- `HwInfo` from src/hw.rs. -/
structure HwInfo where
  logical_cpus : Nat
  total_ram_mb : Nat
  disk_kind : DiskKind
  deriving DecidableEq

/-- `MultiTune` from src/autotune.rs. -/
structure MultiTune where
  workers : Nat
  duckdb_threads_per_job : Nat
  deriving DecidableEq

/-! ## Association-list map helpers

These model `BTreeMap::get`, `BTreeMap::insert` (replace on duplicate key) and
`BTreeMap::remove`.  Key order is irrelevant to every claim below, so the
sortedness of `BTreeMap` is not modelled. -/

/-- Lookup of a key, first match wins (keys are unique in all uses). -/
def mapLookup {α : Type} (k : String) : List (String × α) → Option α
  | [] => none
  | (k2, v) :: rest => if k = k2 then some v else mapLookup k rest

/-- Insert, replacing an existing binding of the same key. -/
def mapInsert {α : Type} (k : String) (v : α) : List (String × α) → List (String × α)
  | [] => [(k, v)]
  | (k2, v2) :: rest =>
      if k = k2 then (k, v) :: rest else (k2, v2) :: mapInsert k v rest

/-- Remove a key, returning the removed value (models `BTreeMap::remove`). -/
def mapRemove {α : Type} (k : String) : List (String × α) → Option α × List (String × α)
  | [] => (none, [])
  | (k2, v) :: rest =>
      if k = k2 then (some v, rest)
      else
        let r := mapRemove k rest
        (r.1, (k2, v) :: r.2)

/-- Membership test on a list of strings (models `HashSet::contains`,
`Vec::contains` and existence checks on a set of file names). -/
def containsStr : List String → String → Bool
  | [], _ => false
  | x :: rest, n => if x = n then true else containsStr rest n

/-- Remove one occurrence of a string (models `fs::remove_file` on the set of
files on disk). -/
def listErase (n : String) : List String → List String
  | [] => []
  | x :: rest => if x = n then rest else x :: listErase n rest

/-- Number of occurrences of `c` in a list of strings. -/
def countOcc (c : String) : List String → Nat
  | [] => 0
  | x :: rest => (if x = c then 1 else 0) + countOcc c rest

/-! ## CacheStore (src/cache.rs) -/

/-- The `same` test of `diff_files` (src/cache.rs:54-56): plain equality of
`size`, `mtime_unix_ms` and `quick_hash`.  Note there is no special case for
the `"ERR"` sentinel hash. -/
def stampSame (old st : FileStamp) : Bool :=
  old.size == st.size && old.mtime_unix_ms == st.mtime_unix_ms
    && old.quick_hash == st.quick_hash

/-- One iteration of the `diff_files` loop: a current stamp is changed iff its
path has no previous entry or `stampSame` fails (src/cache.rs:51-62). -/
def stampChanged (prev_map : List (String × FileStamp)) (st : FileStamp) : Bool :=
  match mapLookup st.path prev_map with
  | none => true
  | some old => !stampSame old st

/-- The `changed` list accumulated by `diff_files`, in current-list order. -/
def diffChanged (prev_map : List (String × FileStamp)) : List FileStamp → List FileStamp
  | [] => []
  | st :: rest =>
      if stampChanged prev_map st then st :: diffChanged prev_map rest
      else diffChanged prev_map rest

/-- The `next_map` built by `diff_files`: every current stamp inserted keyed by
its path (src/cache.rs:47-49).  The loop also computes `changed`; since
`next_map` is never read inside the loop the two accumulations are modelled as
two passes. -/
def buildNextMap (current : List FileStamp) : List (String × FileStamp) :=
  current.foldl (fun m st => mapInsert st.path st m) []

/-- Stamps of an optional previous manifest (src/cache.rs:44-45). -/
def prevStamps : Option CacheMeta → List (String × FileStamp)
  | some m => m.stamps
  | none => []

/-- `diff_files` from src/cache.rs:35-72. -/
def diff_files (prev : Option CacheMeta) (dataset : String) (mode : RunMode)
    (current : List FileStamp) : CacheMeta × List FileStamp :=
  let prev_map := prevStamps prev
  (⟨dataset, mode, buildNextMap current⟩, diffChanged prev_map current)

/-! ## AutoTune (src/autotune.rs) -/

/-- `auto_tune_single` from src/autotune.rs:9-25. -/
def auto_tune_single (hw : HwInfo) : Nat :=
  let cores := hw.logical_cpus.max 1
  let ram := hw.total_ram_mb
  if ram < 4096 then 1
  else if ram < 8192 then Nat.min 2 cores
  else
    match hw.disk_kind with
    | DiskKind.Ssd => (Nat.min 4 cores).max 1
    | DiskKind.Hdd => (Nat.min 2 cores).max 1
    | DiskKind.Unknown => (Nat.min 2 cores).max 1

/-- `auto_tune_multi` from src/autotune.rs:27-61. -/
def auto_tune_multi (hw : HwInfo) (files : Nat) : MultiTune :=
  let cores := hw.logical_cpus.max 1
  let ram := hw.total_ram_mb
  let base_workers :=
    match hw.disk_kind with
    | DiskKind.Ssd => (cores / 2).max 2
    | DiskKind.Hdd => (cores / 3).max 1
    | DiskKind.Unknown => (cores / 3).max 1
  let ram_cap_workers :=
    if ram < 4096 then 1
    else if ram < 8192 then 2
    else if ram < 16384 then 4
    else 8
  let workers := ((base_workers.min ram_cap_workers).min (files.max 1)).max 1
  let duckdb_threads_per_job :=
    if workers ≥ 6 then 1
    else if workers ≥ 3 then Nat.min 2 cores
    else (auto_tune_single hw).max 1
  ⟨workers, duckdb_threads_per_job.max 1⟩

/-! ## Orchestrator helpers (src/app.rs) -/

/-- `size_mb` from src/app.rs:27-29.  The `u64 as f64` conversion and the
division by `1024*1024` are exact in `f64` for every realistic size
(below `2^53` bytes), so the function is modelled on `ℚ`. -/
def size_mb (bytes : Nat) : ℚ :=
  (bytes : ℚ) / (1024 * 1024)

/-- `should_heavy_first` from src/app.rs:31-39.  Lists with fewer than two
elements return `false`; the ratio test requires a strictly positive second
size; `1.5` is exactly representable in `f64`, so the comparisons are exact on
the rational sizes. -/
def should_heavy_first (sorted_desc : List FileStamp) : Bool :=
  match sorted_desc with
  | a :: b :: _ =>
      let max_mb := size_mb a.size
      let second_mb := size_mb b.size
      decide (30 ≤ max_mb)
        || (decide (0 < second_mb) && decide ((3 / 2 : ℚ) * second_mb ≤ max_mb))
  | _ => false

/-! ## Extractor: cells and types (src/extract_orders.rs) -/

/-- The exact value of an `f64`: every finite IEEE double is a rational number;
NaN and the infinities are collapsed into `notFinite` (none of the claims
distinguishes them). -/
inductive FloatV
  | finite (q : ℚ)
  | notFinite
  deriving DecidableEq

/-- `calamine::Data`, restricted to the variants the source matches on.
`other` stands for `DateTime`/`DateTimeIso`/`DurationIso`/`Error`, carrying the
string its `to_string()` renders to (only used by text coercion). -/
inductive Data
  | empty
  | string (s : String)
  | bool (b : Bool)
  | int (i : Int)
  | float (f : FloatV)
  | other (rendered : String)
  deriving DecidableEq

/-- `ColType` from src/extract_orders.rs:54-61. -/
inductive ColType
  | Unknown
  | Bool
  | Int
  | Double
  | Text
  deriving DecidableEq, BEq

/-- `float_is_integer` from src/extract_orders.rs:72-76: finite and zero
fractional part; on the exact rational value this is `den = 1`. -/
def float_is_integer : FloatV → Bool
  | FloatV.finite q => q.den == 1
  | FloatV.notFinite => false

/-- `merge_type` from src/extract_orders.rs:78-134. -/
def merge_type (cur : ColType) (v : Data) : ColType :=
  match v with
  | Data.empty => cur
  | Data.string s => if s.trim.isEmpty then cur else ColType.Text
  | Data.bool _ =>
      match cur with
      | ColType.Unknown | ColType.Bool => ColType.Bool
      | _ => ColType.Text
  | Data.int _ =>
      match cur with
      | ColType.Unknown => ColType.Int
      | ColType.Int => ColType.Int
      | ColType.Double => ColType.Double
      | ColType.Bool => ColType.Text
      | ColType.Text => ColType.Text
  | Data.float f =>
      let as_int_like := float_is_integer f
      match cur with
      | ColType.Unknown => if as_int_like then ColType.Int else ColType.Double
      | ColType.Int => if as_int_like then ColType.Int else ColType.Double
      | ColType.Double => ColType.Double
      | ColType.Bool => ColType.Text
      | ColType.Text => ColType.Text
  | Data.other _ => ColType.Text

/-- The inner loop of `infer_col_types` (src/extract_orders.rs:144-149):
`types[i] = merge_type(types[i], row[i])` for the indices present in both; a
missing cell (`row.get(i) == None`) leaves the column state unchanged. -/
def mergeRow : List ColType → List Data → List ColType
  | [], _ => []
  | ts, [] => ts
  | t :: ts, c :: cs => merge_type t c :: mergeRow ts cs

/-- The row scan of `infer_col_types` (src/extract_orders.rs:142-154),
including the early exit once every column is `Text`. -/
def inferGo (types : List ColType) : List (List Data) → List ColType
  | [] => types
  | row :: rest =>
      let types2 := mergeRow types row
      if types2.all (· == ColType.Text) then types2 else inferGo types2 rest

/-- `infer_col_types` from src/extract_orders.rs:136-164: scan at most
`maxRows` rows, then finalize `Unknown` to `Text`. -/
def infer_col_types (rows : List (List Data)) (ncols maxRows : Nat) : List ColType :=
  (inferGo (List.replicate ncols ColType.Unknown) (rows.take maxRows)).map
    fun t => if t == ColType.Unknown then ColType.Text else t

/-! ## Extractor: text coercion and headers (src/extract_orders.rs) -/

/-- `push_str_trim_if_needed` from src/extract_orders.rs:17-30: trim only when
the first or last byte is one of space, tab, CR, LF. -/
def push_str_trim_if_needed (s : String) : String :=
  if s.isEmpty then ""
  else
    let firstWs := s.front = ' ' ∨ s.front = '\t' ∨ s.front = '\r' ∨ s.front = '\n'
    let lastWs := s.back = ' ' ∨ s.back = '\t' ∨ s.back = '\r' ∨ s.back = '\n'
    if firstWs ∨ lastWs then s.trim else s

/-- Placeholder rendering of `write!("{}", f)` for an `f64`.  No theorem below
depends on the decimal rendering of a float, so the exact Rust `Display`
algorithm (shortest round-trip representation) is not reproduced. -/
def floatDisplay : FloatV → String
  | FloatV.finite q => toString q.num ++ "/" ++ toString q.den
  | FloatV.notFinite => "NaN"

/-- `cell_to_text_into` from src/extract_orders.rs:32-52 (returning the string
it writes into its out-parameter). -/
def cell_to_text : Data → String
  | Data.empty => ""
  | Data.string s => push_str_trim_if_needed s
  | Data.bool b => if b then "true" else "false"
  | Data.int i => toString i
  | Data.float f => floatDisplay f
  | Data.other rendered => push_str_trim_if_needed rendered

/-- `sanitize_col_name` from src/extract_orders.rs:11-15.  Rust
`char::is_alphanumeric` is Unicode-aware; `Char.isAlphanum` agrees with it on
ASCII, which is all the concrete inputs below use. -/
def sanitize_col_name (raw : String) : String :=
  String.mk (raw.data.map fun ch => if ch.isAlphanum then ch else '_')

/-- Header naming before deduplication (src/extract_orders.rs:275-285), on the
already-coerced header cell texts: an empty text becomes `col_<i>`, then the
name is sanitized. -/
def headerCols (texts : List String) : List String :=
  texts.enum.map fun p =>
    sanitize_col_name (if p.2.isEmpty then "col_" ++ Nat.repr p.1 else p.2)

/-- The dedup pass of src/extract_orders.rs:287-298: `seen` counts previous
occurrences of each original name; the `n`-th repeat (`n > 0`) is renamed to
`name_<n>`. -/
def dedupGo (seen : String → Nat) : List String → List String
  | [] => []
  | c :: rest =>
      let n := seen c
      let c2 := if 0 < n then c ++ "_" ++ Nat.repr n else c
      c2 :: dedupGo (fun s => if s = c then n + 1 else seen s) rest

/-- Column-name deduplication starting from an empty `seen` map. -/
def dedupNames (cols : List String) : List String :=
  dedupGo (fun _ => 0) cols

/-- Full header pipeline: coerced texts → `col_<i>` naming → sanitize → dedup. -/
def headerFinalNames (texts : List String) : List String :=
  dedupNames (headerCols texts)

/-! ## Extractor: typed row loading (src/extract_orders.rs) -/

/-- `i64::MIN`. -/
def i64Min : Int := -(2 ^ 63)

/-- `i64::MAX`. -/
def i64Max : Int := 2 ^ 63 - 1

/-- Exact value of `i64::MIN as f64`: `-2^63` is a power of two, represented
exactly. -/
def i64MinAsF64 : ℚ := -(2 ^ 63)

/-- Exact value of `i64::MAX as f64`: `2^63 - 1` is not representable and
rounds to nearest, giving exactly `2^63`. -/
def i64MaxAsF64 : ℚ := 2 ^ 63

/-- Rust `f as i64` on an integer-valued float: truncation is the identity and
the cast saturates at the `i64` range boundaries. -/
def f64_as_i64_sat (q : ℚ) : Int :=
  max i64Min (min q.num i64Max)

/-- Provenance of a value stored in the `f64` scratch slot (`Data::Int` is
widened by `as f64`, whose rounding no claim depends on, so only the source is
recorded). -/
inductive DVal
  | ofInt (i : Int)
  | ofFloat (f : FloatV)
  deriving DecidableEq

/-- The four per-column scratch slots of the append loop
(src/extract_orders.rs:332-335); `fill_typed_slot` resets all of them and
fills at most one. -/
structure Slots where
  text : String
  i64 : Option Int
  f64 : Option DVal
  bool : Option Bool
  deriving DecidableEq

/-- All-`None`/empty slots. -/
def emptySlots : Slots := ⟨"", none, none, none⟩

/-- `fill_typed_slot` from src/extract_orders.rs:167-224. -/
def fill_typed_slot (cell : Option Data) (col_type : ColType) : Slots :=
  match cell with
  | none => emptySlots
  | some v =>
      match col_type with
      | ColType.Text => { emptySlots with text := cell_to_text v }
      | ColType.Bool =>
          match v with
          | Data.bool b => { emptySlots with bool := some b }
          | _ => emptySlots
      | ColType.Int =>
          match v with
          | Data.int i => { emptySlots with i64 := some i }
          | Data.float f =>
              if float_is_integer f then
                match f with
                | FloatV.finite q =>
                    if i64MinAsF64 ≤ q ∧ q ≤ i64MaxAsF64 then
                      { emptySlots with i64 := some (f64_as_i64_sat q) }
                    else emptySlots
                | FloatV.notFinite => emptySlots
              else emptySlots
          | _ => emptySlots
      | ColType.Double =>
          match v with
          | Data.int i => { emptySlots with f64 := some (DVal.ofInt i) }
          | Data.float f => { emptySlots with f64 := some (DVal.ofFloat f) }
          | _ => emptySlots
      | ColType.Unknown => { emptySlots with text := cell_to_text v }

/-- The per-row slot-filling loop of the append phase
(src/extract_orders.rs:340-351): `fill_typed_slot(row.get(i), types[i])` for
`i` in `0..ncols`; this loop runs for every data row, not only the inference
prefix. -/
def row_slots : List ColType → List Data → List Slots
  | [], _ => []
  | t :: ts, [] => fill_typed_slot none t :: row_slots ts []
  | t :: ts, c :: cs => fill_typed_slot (some c) t :: row_slots ts cs

/-- Well-formedness of a cell coming from Rust: the `Data::Int` payload is an
`i64`. -/
def dataWF : Data → Prop
  | Data.int i => i64Min ≤ i ∧ i ≤ i64Max
  | _ => True

instance : DecidablePred dataWF := by
  intro v
  cases v <;> simp [dataWF] <;> infer_instance

/-- Well-formedness of a row: every cell is well-formed. -/
def rowWF (row : List Data) : Prop := ∀ v ∈ row, dataWF v

/-- The promotion order of the inference lattice
`Unknown < Bool | Int < Double < Text` (src/extract_orders.rs:78-134):
`ctLe s t` says a column state may evolve from `s` to `t`. -/
def ctLe : ColType → ColType → Bool
  | ColType.Unknown, _ => true
  | _, ColType.Text => true
  | ColType.Bool, ColType.Bool => true
  | ColType.Int, ColType.Int => true
  | ColType.Int, ColType.Double => true
  | ColType.Double, ColType.Double => true
  | _, _ => false

/-! ## Orchestrator: Multi mode (src/app.rs, `extract_multi`)

The filesystem state is explicit: `map` is the content of `parquet_map.tsv`,
`disk` the set of parquet file names in `multi/daily/`.  Whether each
extraction succeeds is the parameter `exOk : String → Bool`; the parquet name
chosen for a stamp (it embeds a wall-clock timestamp) is the parameter
`nameOf : FileStamp → String`. -/

/-- The deletion-cleanup loop of `extract_multi` (src/app.rs:212-231): for
every previous stamp whose path is no longer current, remove its map entry
and, when present, its parquet file. -/
def cleanupGo (currentPaths : List String) :
    List (String × FileStamp) → List (String × String) → List String →
      List (String × String) × List String
  | [], map, disk => (map, disk)
  | (_, old) :: rest, map, disk =>
      if containsStr currentPaths old.path then cleanupGo currentPaths rest map disk
      else
        match mapRemove old.path map with
        | (some name, map2) =>
            let disk2 := if containsStr disk name then listErase name disk else disk
            cleanupGo currentPaths rest map2 disk2
        | (none, map2) => cleanupGo currentPaths rest map2 disk

/-- The whole cleanup block (src/app.rs:211-234): only runs when a previous
manifest exists. -/
def cleanup (prev : Option CacheMeta) (stamps : List FileStamp)
    (map : List (String × String)) (disk : List String) :
    List (String × String) × List String :=
  match prev with
  | none => (map, disk)
  | some pm => cleanupGo (stamps.map FileStamp.path) pm.stamps map disk

/-- `multi_outputs_ok` from src/app.rs:416-440: the map file exists, the daily
directory exists, the map is non-empty, and every current input has an entry
whose parquet file is on disk. -/
def multi_outputs_ok (mapFileExists dirExists : Bool)
    (map : List (String × String)) (disk : List String)
    (stamps : List FileStamp) : Bool :=
  mapFileExists && dirExists && !map.isEmpty &&
    stamps.all fun st =>
      match mapLookup st.path map with
      | some name => containsStr disk name
      | none => false

/-- Stable insertion for descending sort by size. -/
def insertDesc (st : FileStamp) : List FileStamp → List FileStamp
  | [] => [st]
  | b :: rest => if b.size ≤ st.size then st :: b :: rest else b :: insertDesc st rest

/-- `changed.sort_by(|a, b| b.size.cmp(&a.size))` (src/app.rs:253): a stable
descending sort by size. -/
def sortDesc : List FileStamp → List FileStamp
  | [] => []
  | a :: rest => insertDesc a (sortDesc rest)

/-- Phases A and B of `extract_multi` (src/app.rs:291-389) act identically on
the map, the disk, `ok_count` and `fail_list` — only thread budgets and
parallelism differ, which no claim below depends on — so both are modelled by
one loop over the (sorted) changed list: a success writes the parquet and
records the map entry, a failure is appended to the fail list. -/
def extractLoop (exOk : String → Bool) (nameOf : FileStamp → String) :
    List FileStamp → List (String × String) → List String →
      List (String × String) × List String × Nat × List String
  | [], map, disk => (map, disk, 0, [])
  | st :: rest, map, disk =>
      if exOk st.path then
        let name := nameOf st
        let r := extractLoop exOk nameOf rest (mapInsert st.path name map) (name :: disk)
        (r.1, r.2.1, r.2.2.1 + 1, r.2.2.2)
      else
        let r := extractLoop exOk nameOf rest map disk
        (r.1, r.2.1, r.2.2.1, st.path :: r.2.2.2)

/-- Result of one Multi run. -/
structure MultiRun where
  next : CacheMeta
  changedEff : List FileStamp
  finalMap : List (String × String)
  finalDisk : List String
  okCount : Nat
  failList : List String
  savedManifest : CacheMeta
  retOk : Bool

/-- `extract_multi` from src/app.rs:199-411.  Control flow mirrored:
cleanup of deleted inputs, diff, the output-integrity gate when the diff is
empty (`changed := stamps` on gate failure), descending size sort, the
extraction phases, then the unconditional `save_tsv_map` and
`cache::save_cache(&next)` (src/app.rs:391-392; the early no-change return at
src/app.rs:247 also saves `next`).  The function returns `Ok` iff `fail_list`
is empty.  `mapFileExists0` is whether `parquet_map.tsv` existed before the
run (after a cleanup pass it always exists, src/app.rs:233); the daily
directory always exists at the gate because of `create_dir_all`
(src/app.rs:207). -/
def runMulti (prev : Option CacheMeta) (ds : String) (stamps : List FileStamp)
    (map0 : List (String × String)) (disk0 : List String)
    (mapFileExists0 : Bool) (exOk : String → Bool)
    (nameOf : FileStamp → String) : MultiRun :=
  let c := cleanup prev stamps map0 disk0
  let map1 := c.1
  let disk1 := c.2
  let mapFileExists1 := prev.isSome || mapFileExists0
  let d := diff_files prev ds RunMode.Multi stamps
  let next := d.1
  let changed := d.2
  if changed.isEmpty && multi_outputs_ok mapFileExists1 true map1 disk1 stamps then
    ⟨next, [], map1, disk1, 0, [], next, true⟩
  else
    let changedEff := if changed.isEmpty then stamps else changed
    let sorted := sortDesc changedEff
    let r := extractLoop exOk nameOf sorted map1 disk1
    ⟨next, changedEff, r.1, r.2.1, r.2.2.1, r.2.2.2, next, r.2.2.2.isEmpty⟩

/-- Exit code of the process (src/main.rs:61-118): `main` returns
`anyhow::Result<()>`, whose standard `Termination` instance exits with code 0
on `Ok` and code 1 on `Err`; no other exit path exists in the source. -/
def processExitCode (retOk : Bool) : Nat :=
  if retOk then 0 else 1

/-! ## Orchestrator: Single mode (src/app.rs, `extract_single`) -/

/-- The on-disk state touched by a Single run: the trimmed content of
`current_parquet.txt` (`none` when the file is missing or blank, matching
`read_optional_trimmed`), the set of parquet file names in `single/`, and the
persisted manifest. -/
structure SingleState where
  currentTxt : Option String
  parquets : List String
  manifest : Option CacheMeta
  deriving DecidableEq

/-- The `parquet_missing` test of `extract_single` (src/app.rs:146-157). -/
def single_parquet_missing (st0 : SingleState) : Bool :=
  let old_parquet := match st0.currentTxt with | some s => s | none => ""
  if old_parquet.isEmpty then true else !containsStr st0.parquets old_parquet

/-- `extract_single` from src/app.rs:133-193.  `restat` is the result of the
second `stat_file` on the newest file (`none` = I/O error), `exResult` whether
`extract_one_excel_to_parquet` succeeds, `nameOf` the generated parquet name.
Returns `(succeeded, final state)`.  On the no-change fast path only the
manifest is rewritten; otherwise the extractor runs first and every write
(new parquet, old-parquet deletion, pointer, manifest) happens only after it
succeeds. -/
def extract_single_model (ds : String) (stamps : List FileStamp)
    (prev : Option CacheMeta) (st0 : SingleState)
    (restat : Option FileStamp) (exResult : Bool)
    (nameOf : FileStamp → String) : Bool × SingleState :=
  let d := diff_files prev ds RunMode.Single stamps
  let next := d.1
  let changed := d.2
  let old_parquet := match st0.currentTxt with | some s => s | none => ""
  let old_path : Option String := if old_parquet.isEmpty then none else some old_parquet
  if changed.isEmpty && !single_parquet_missing st0 then
    (true, { st0 with manifest := some next })
  else
    match restat with
    | none => (false, st0)
    | some st =>
        if exResult then
          let newName := nameOf st
          let parquets1 := newName :: st0.parquets
          let parquets2 :=
            match old_path with
            | some oldp =>
                if containsStr parquets1 oldp && oldp ≠ newName then
                  listErase oldp parquets1
                else parquets1
            | none => parquets1
          (true, ⟨some newName, parquets2, some next⟩)
        else (false, st0)

/-! ## Basic lemmas about the map and list helpers -/

theorem mapLookup_mapInsert_self {α : Type} (k : String) (v : α) (m : List (String × α)) :
    mapLookup k (mapInsert k v m) = some v := by
  induction m with
  | nil => simp [mapInsert, mapLookup]
  | cons e rest ih =>
      obtain ⟨k2, v2⟩ := e
      by_cases h : k = k2 <;> simp [mapInsert, mapLookup, h, ih]

theorem mapLookup_mapInsert_ne {α : Type} (p k : String) (v : α) (m : List (String × α))
    (h : p ≠ k) : mapLookup p (mapInsert k v m) = mapLookup p m := by
  induction m with
  | nil => simp [mapInsert, mapLookup, h]
  | cons e rest ih =>
      obtain ⟨k2, v2⟩ := e
      by_cases h2 : k = k2
      · subst h2
        simp [mapInsert, mapLookup, h]
      · by_cases h3 : p = k2 <;> simp [mapInsert, mapLookup, h2, h3, ih]

theorem mapRemove_fst {α : Type} (k : String) (m : List (String × α)) :
    (mapRemove k m).1 = mapLookup k m := by
  induction m with
  | nil => simp [mapRemove, mapLookup]
  | cons e rest ih =>
      obtain ⟨k2, v2⟩ := e
      by_cases h : k = k2 <;> simp [mapRemove, mapLookup, h, ih]

theorem mapRemove_lookup_ne {α : Type} (p k : String) (m : List (String × α)) (h : p ≠ k) :
    mapLookup p (mapRemove k m).2 = mapLookup p m := by
  induction m with
  | nil => simp [mapRemove, mapLookup]
  | cons e rest ih =>
      obtain ⟨k2, v2⟩ := e
      by_cases h2 : k = k2
      · subst h2
        simp [mapRemove, mapLookup, h]
      · by_cases h3 : p = k2 <;> simp [mapRemove, mapLookup, h2, h3, ih]

theorem mapRemove_sublist {α : Type} (k : String) (m : List (String × α)) :
    ((mapRemove k m).2).Sublist m := by
  induction m with
  | nil => simp [mapRemove]
  | cons e rest ih =>
      obtain ⟨k2, v2⟩ := e
      by_cases h : k = k2
      · simp [mapRemove, h]
      · simpa [mapRemove, h] using ih.cons₂ (k2, v2)

theorem mapLookup_eq_none_of_not_mem_keys {α : Type} (k : String) (m : List (String × α))
    (h : k ∉ m.map Prod.fst) : mapLookup k m = none := by
  induction m with
  | nil => simp [mapLookup]
  | cons e rest ih =>
      obtain ⟨k2, v2⟩ := e
      simp only [List.map_cons, List.mem_cons] at h
      push_neg at h
      simp [mapLookup, h.1, ih h.2]

theorem mapRemove_lookup_self {α : Type} (k : String) (m : List (String × α))
    (hnd : (m.map Prod.fst).Nodup) : mapLookup k (mapRemove k m).2 = none := by
  induction m with
  | nil => simp [mapRemove, mapLookup]
  | cons e rest ih =>
      obtain ⟨k2, v2⟩ := e
      simp only [List.map_cons, List.nodup_cons] at hnd
      by_cases h : k = k2
      · subst h
        simp only [mapRemove, if_pos rfl]
        exact mapLookup_eq_none_of_not_mem_keys k rest hnd.1
      · simp [mapRemove, h, mapLookup, ih hnd.2]

theorem mapLookup_mem_values {α : Type} (p : String) (m : List (String × α)) (n : α)
    (h : mapLookup p m = some n) : n ∈ m.map Prod.snd := by
  induction m with
  | nil => simp [mapLookup] at h
  | cons e rest ih =>
      obtain ⟨k2, v2⟩ := e
      by_cases h2 : p = k2
      · simp [mapLookup, h2] at h
        simp [h]
      · simp only [mapLookup, if_neg h2] at h
        simp [ih h]

theorem mapRemove_none_eq {α : Type} (k : String) (m : List (String × α))
    (h : (mapRemove k m).1 = none) : (mapRemove k m).2 = m := by
  induction m with
  | nil => simp [mapRemove]
  | cons e rest ih =>
      obtain ⟨k2, v2⟩ := e
      by_cases h2 : k = k2
      · simp [mapRemove, h2] at h
      · simp only [mapRemove, if_neg h2] at h ⊢
        simp [ih h]

theorem containsStr_iff (l : List String) (x : String) :
    containsStr l x = true ↔ x ∈ l := by
  induction l with
  | nil => simp [containsStr]
  | cons y rest ih =>
      by_cases h : y = x
      · simp [containsStr, h]
      · have hx : x ≠ y := fun hxy => h hxy.symm
        simp [containsStr, h, ih, hx]

theorem listErase_sublist (n : String) (l : List String) : (listErase n l).Sublist l := by
  induction l with
  | nil => simp [listErase]
  | cons x rest ih =>
      by_cases h : x = n
      · simp [listErase, h]
      · simpa [listErase, h] using ih.cons₂ x

theorem mem_listErase_of_ne (x n : String) (l : List String) (hne : x ≠ n) (hx : x ∈ l) :
    x ∈ listErase n l := by
  induction l with
  | nil => simp at hx
  | cons y rest ih =>
      by_cases h : y = n
      · subst h
        rcases List.mem_cons.mp hx with h1 | h1
        · exact absurd h1 hne
        · simpa [listErase] using h1
      · rcases List.mem_cons.mp hx with h1 | h1
        · simp [listErase, h, h1]
        · simp [listErase, h, ih h1]

theorem not_mem_listErase_self (n : String) (l : List String) (hnd : l.Nodup) :
    n ∉ listErase n l := by
  induction l with
  | nil => simp [listErase]
  | cons x rest ih =>
      simp only [List.nodup_cons] at hnd
      by_cases h : x = n
      · subst h
        simpa [listErase] using hnd.1
      · intro hmem
        simp only [listErase, if_neg h, List.mem_cons] at hmem
        rcases hmem with h1 | h1
        · exact h h1.symm
        · exact ih hnd.2 h1

/-! ## Lemmas about `diff_files` -/

theorem mem_diffChanged (pm : List (String × FileStamp)) (cur : List FileStamp)
    (x : FileStamp) :
    x ∈ diffChanged pm cur ↔ x ∈ cur ∧ stampChanged pm x = true := by
  induction cur with
  | nil => simp [diffChanged]
  | cons st rest ih =>
      by_cases h : stampChanged pm st = true
      · simp only [diffChanged, if_pos h, List.mem_cons, ih]
        constructor
        · rintro (rfl | ⟨h1, h2⟩)
          · exact ⟨Or.inl rfl, h⟩
          · exact ⟨Or.inr h1, h2⟩
        · rintro ⟨rfl | h1, h2⟩
          · exact Or.inl rfl
          · exact Or.inr ⟨h1, h2⟩
      · simp only [diffChanged, if_neg h, ih, List.mem_cons]
        constructor
        · rintro ⟨h1, h2⟩
          exact ⟨Or.inr h1, h2⟩
        · rintro ⟨rfl | h1, h2⟩
          · exact absurd h2 h
          · exact ⟨h1, h2⟩

theorem stampChanged_eq_true_iff (pm : List (String × FileStamp)) (st : FileStamp) :
    stampChanged pm st = true ↔
      mapLookup st.path pm = none ∨
        ∃ old, mapLookup st.path pm = some old ∧
          ¬(old.size = st.size ∧ old.mtime_unix_ms = st.mtime_unix_ms ∧
            old.quick_hash = st.quick_hash) := by
  unfold stampChanged
  cases hl : mapLookup st.path pm with
  | none => simp
  | some old =>
      simp only [Bool.not_eq_true']
      constructor
      · intro h
        refine Or.inr ⟨old, rfl, fun hc => ?_⟩
        have : stampSame old st = true := by
          simp [stampSame, hc.1, hc.2.1, hc.2.2]
        simp [this] at h
      · rintro (h | ⟨old2, hsome, hne⟩)
        · simp at h
        · obtain rfl : old2 = old := by simpa using hsome.symm
          by_contra hcon
          simp only [Bool.not_eq_false] at hcon
          simp only [stampSame, Bool.and_eq_true, beq_iff_eq] at hcon
          exact hne ⟨hcon.1.1, hcon.1.2, hcon.2⟩

theorem stampChanged_self_eq_false (pm : List (String × FileStamp)) (st : FileStamp)
    (h : mapLookup st.path pm = some st) : stampChanged pm st = false := by
  simp [stampChanged, h, stampSame]

theorem diffChanged_eq_nil (pm : List (String × FileStamp)) (cur : List FileStamp)
    (h : ∀ st ∈ cur, stampChanged pm st = false) : diffChanged pm cur = [] := by
  induction cur with
  | nil => rfl
  | cons st rest ih =>
      have h1 := h st (List.mem_cons_self st rest)
      simp only [diffChanged, h1]
      simp only [Bool.false_eq_true, if_false]
      exact ih fun s hs => h s (List.mem_cons_of_mem st hs)

theorem foldl_insert_lookup_not_mem (l : List FileStamp) (acc : List (String × FileStamp))
    (p : String) (h : p ∉ l.map FileStamp.path) :
    mapLookup p (l.foldl (fun m st => mapInsert st.path st m) acc) = mapLookup p acc := by
  induction l generalizing acc with
  | nil => rfl
  | cons s rest ih =>
      simp only [List.map_cons, List.mem_cons] at h
      push_neg at h
      simp only [List.foldl_cons]
      rw [ih _ h.2, mapLookup_mapInsert_ne p s.path s acc h.1]

theorem buildNextMap_lookup (stamps : List FileStamp)
    (hnd : (stamps.map FileStamp.path).Nodup) (st : FileStamp) (hst : st ∈ stamps) :
    mapLookup st.path (buildNextMap stamps) = some st := by
  unfold buildNextMap
  have key : ∀ (l : List FileStamp) (acc : List (String × FileStamp)),
      (l.map FileStamp.path).Nodup → st ∈ l →
      mapLookup st.path (l.foldl (fun m s => mapInsert s.path s m) acc) = some st := by
    intro l
    induction l with
    | nil => intro acc _ h; simp at h
    | cons s rest ih =>
        intro acc hnd2 hmem
        simp only [List.map_cons, List.nodup_cons] at hnd2
        rcases List.mem_cons.mp hmem with rfl | hmem2
        · simp only [List.foldl_cons]
          rw [foldl_insert_lookup_not_mem rest _ st.path hnd2.1]
          exact mapLookup_mapInsert_self st.path st acc
        · simp only [List.foldl_cons]
          exact ih _ hnd2.2 hmem2
  exact key stamps [] hnd hst

/-! ## Claim C2: change detection in `diff_files` -/

/-- C2, counterexample.  The claim states that a current stamp whose
`quick_hash` is the sentinel `"ERR"` is always marked changed, even against a
previous `"ERR"` entry.  In the code `diff_files` compares hashes by plain
string equality (src/cache.rs:54-56), so a previous `"ERR"` stamp with the
same size and mtime compares equal and the file is not marked changed: here
the changed list is empty. -/
theorem diff_err_vs_err_not_marked_changed :
    (diff_files (some ⟨"ds", RunMode.Multi, [("p", ⟨"p", 1, 1, "ERR"⟩)]⟩) "ds"
        RunMode.Multi [⟨"p", 1, 1, "ERR"⟩]).2 = []
      ∧ (⟨"p", 1, 1, "ERR"⟩ : FileStamp).quick_hash = "ERR" := by
  constructor
  · rfl
  · rfl

/-- C2, amended: for every previous manifest and every list of current stamps,
`diff_files` marks a current stamp as changed iff there is no previous entry
for its path or any of `size`, `mtime_unix_ms`, `quick_hash` differs under
plain equality.  There is no special case for the `"ERR"` sentinel: it differs
from every real digest as a string, but a previous `"ERR"` entry equal in all
three fields compares unchanged. -/
theorem diff_changed_iff_plain_equality :
    ∀ (prev : Option CacheMeta) (ds : String) (mode : RunMode)
      (current : List FileStamp) (st : FileStamp),
      st ∈ (diff_files prev ds mode current).2 ↔
        st ∈ current ∧
          (mapLookup st.path (prevStamps prev) = none ∨
            ∃ old, mapLookup st.path (prevStamps prev) = some old ∧
              ¬(old.size = st.size ∧ old.mtime_unix_ms = st.mtime_unix_ms ∧
                old.quick_hash = st.quick_hash)) := by
  intro prev ds mode current st
  unfold diff_files
  rw [mem_diffChanged, stampChanged_eq_true_iff]

/-! ## Claim C5: the heavy-first decision -/

/-- C5, counterexample.  The claim states the heavy-first rule applies to
one-element lists (largest ≥ 30 MB would enable it) and to lists whose second
element is zero bytes (largest ≥ 1.5 × 0 would enable it).  The code
(src/app.rs:31-39) returns `false` for every list shorter than two and
requires the second size to be strictly positive for the ratio test: a single
31 MB file and a 10 MB file followed by an empty file both yield `false`
although the claimed rule enables heavy-first for both. -/
theorem heavy_first_short_list_counterexample :
    (should_heavy_first [⟨"big.xlsx", 31 * 1024 * 1024, 0, "h"⟩] = false
      ∧ 30 ≤ size_mb (31 * 1024 * 1024))
    ∧ (should_heavy_first
          [⟨"a.xlsx", 10 * 1024 * 1024, 0, "h1"⟩, ⟨"b.xlsx", 0, 0, "h2"⟩] = false
      ∧ (3 / 2 : ℚ) * size_mb 0 ≤ size_mb (10 * 1024 * 1024)) := by
  refine ⟨⟨rfl, by norm_num [size_mb]⟩, ⟨?_, by norm_num [size_mb]⟩⟩
  simp [should_heavy_first, size_mb]
  norm_num

/-- C5, amended: for lists of at least two sizes sorted descending,
heavy-first is enabled iff the largest is at least 30 MB or the second is
strictly positive and the largest is at least 1.5 times the second; lists with
fewer than two elements never enable it. -/
theorem should_heavy_first_characterization :
    ∀ (a b : FileStamp) (rest : List FileStamp),
      (should_heavy_first (a :: b :: rest) = true ↔
        30 ≤ size_mb a.size ∨
          (0 < size_mb b.size ∧ (3 / 2 : ℚ) * size_mb b.size ≤ size_mb a.size))
      ∧ should_heavy_first ([] : List FileStamp) = false
      ∧ ∀ c : FileStamp, should_heavy_first [c] = false := by
  intro a b rest
  refine ⟨?_, rfl, fun c => rfl⟩
  simp [should_heavy_first]

/-! ## Claim C6: the auto-tune scenario (4 cores, 16 GB, SSD, 3 files) -/

/-- C6, counterexample.  The claim (and spec scenario 3) states that AutoTune
returns `threads_per_worker = 2` for 4 logical CPUs, 16384 MB RAM, SSD and 3
files.  With `workers = 2 < 3` the code falls back to the Single-mode value
(src/autotune.rs:49-55), which for RAM ≥ 8192 on SSD is `min(4, cores) = 4`,
not 2. -/
theorem auto_tune_scenario_counterexample :
    (auto_tune_multi ⟨4, 16384, DiskKind.Ssd⟩ 3).duckdb_threads_per_job = 4
      ∧ (auto_tune_multi ⟨4, 16384, DiskKind.Ssd⟩ 3).duckdb_threads_per_job ≠ 2 := by
  constructor
  · rfl
  · decide

/-- C6, amended: for 4 logical CPUs, 16384 MB RAM, SSD and 3 files of sizes
45 MB, 10 MB, 8 MB, AutoTune returns `workers = 2` and
`threads_per_worker = 4` (not 2), and the heavy-first decision is engaged
because 45 MB ≥ 30 MB. -/
theorem auto_tune_scenario_actual :
    auto_tune_multi ⟨4, 16384, DiskKind.Ssd⟩ 3 = ⟨2, 4⟩
      ∧ should_heavy_first
          [⟨"f1.xlsx", 45 * 1024 * 1024, 0, "h1"⟩,
           ⟨"f2.xlsx", 10 * 1024 * 1024, 0, "h2"⟩,
           ⟨"f3.xlsx", 8 * 1024 * 1024, 0, "h3"⟩] = true := by
  constructor
  · rfl
  · simp [should_heavy_first, size_mb]
    norm_num

/-! ## Claim C10: `Text` is absorbing and the inference lattice is monotone -/

theorem merge_type_text_eq_text (v : Data) : merge_type ColType.Text v = ColType.Text := by
  cases v <;> first
    | rfl
    | (simp only [merge_type]
       split <;> rfl)

theorem ctLe_merge_type (cur : ColType) (v : Data) : ctLe cur (merge_type cur v) = true := by
  cases cur <;> cases v <;> first
    | rfl
    | (simp only [merge_type]
       split <;> rfl)

theorem mergeRow_text_persists (ts : List ColType) (row : List Data) (i : Nat)
    (h : ts[i]? = some ColType.Text) : (mergeRow ts row)[i]? = some ColType.Text := by
  induction ts generalizing row i with
  | nil => simp at h
  | cons t rest ih =>
      cases row with
      | nil => simpa [mergeRow] using h
      | cons c cs =>
          cases i with
          | zero =>
              simp only [List.getElem?_cons_zero, Option.some_inj] at h
              subst h
              simp [mergeRow, merge_type_text_eq_text]
          | succ n =>
              simp only [List.getElem?_cons_succ] at h
              simpa [mergeRow] using ih cs n h

theorem inferGo_text_persists (rows : List (List Data)) (types : List ColType) (i : Nat)
    (h : types[i]? = some ColType.Text) : (inferGo types rows)[i]? = some ColType.Text := by
  induction rows generalizing types with
  | nil => simpa [inferGo] using h
  | cons row rest ih =>
      simp only [inferGo]
      split
      · exact mergeRow_text_persists types row i h
      · exact ih (mergeRow types row) (mergeRow_text_persists types row i h)

/-- C10: `Text` is absorbing in the type-inference merge — merging a `Text`
column state with any cell yields `Text`; the merge never demotes a column in
the promotion order `Unknown < Bool | Int < Double < Text`; and during the
`infer_col_types` scan, once a column's state is `Text` it stays `Text` after
any further rows. -/
theorem text_absorbing_and_merge_monotone :
    (∀ v : Data, merge_type ColType.Text v = ColType.Text)
    ∧ (∀ (cur : ColType) (v : Data), ctLe cur (merge_type cur v) = true)
    ∧ (∀ (types : List ColType) (rows : List (List Data)) (i : Nat),
        types[i]? = some ColType.Text →
          (inferGo types rows)[i]? = some ColType.Text) :=
  ⟨merge_type_text_eq_text, ctLe_merge_type,
    fun types rows i h => inferGo_text_persists rows types i h⟩

/-- C10, witness: the persistence clause applied at a concrete input — a
`Text` column stays `Text` across a subsequent boolean cell. -/
theorem text_absorbing_witness :
    ([ColType.Text] : List ColType)[0]? = some ColType.Text
      ∧ (inferGo [ColType.Text] [[Data.bool true]])[0]? = some ColType.Text :=
  ⟨rfl, text_absorbing_and_merge_monotone.2.2 [ColType.Text] [[Data.bool true]] 0 rfl⟩

/-! ## Claim C4: soundness of `Int` columns in the append phase -/

theorem i64Min_le_i64Max : i64Min ≤ i64Max := by
  norm_num [i64Min, i64Max]

theorem f64_as_i64_sat_range (q : ℚ) :
    i64Min ≤ f64_as_i64_sat q ∧ f64_as_i64_sat q ≤ i64Max :=
  ⟨le_max_left _ _, max_le i64Min_le_i64Max (min_le_right _ _)⟩

theorem fill_int_slot_cases (cell : Option Data)
    (hwf : ∀ v, cell = some v → dataWF v) :
    ((fill_typed_slot cell ColType.Int).i64 = none ∨
      ∃ n : Int, (fill_typed_slot cell ColType.Int).i64 = some n ∧
        i64Min ≤ n ∧ n ≤ i64Max)
    ∧ (∀ q : ℚ, cell = some (Data.float (FloatV.finite q)) → q.den ≠ 1 →
        (fill_typed_slot cell ColType.Int).i64 = none) := by
  cases cell with
  | none => exact ⟨Or.inl rfl, fun q hq => by simp at hq⟩
  | some v =>
      cases v with
      | int i =>
          refine ⟨Or.inr ⟨i, rfl, ?_⟩, fun q hq => by simp at hq⟩
          exact hwf (Data.int i) rfl
      | float f =>
          cases f with
          | finite q =>
              by_cases hden : q.den = 1
              · constructor
                · by_cases hb : i64MinAsF64 ≤ q ∧ q ≤ i64MaxAsF64
                  · refine Or.inr ⟨f64_as_i64_sat q, ?_, f64_as_i64_sat_range q⟩
                    simp [fill_typed_slot, float_is_integer, hden, hb, emptySlots]
                  · exact Or.inl (by simp [fill_typed_slot, float_is_integer, hden, hb, emptySlots])
                · intro q2 hq2 hden2
                  obtain rfl : q2 = q := by simpa using hq2.symm
                  exact absurd hden hden2
              · have hfi : float_is_integer (FloatV.finite q) = false := by
                  simp [float_is_integer, hden]
                exact ⟨Or.inl (by simp [fill_typed_slot, hfi, emptySlots]),
                  fun q2 hq2 _ => by simp [fill_typed_slot, hfi, emptySlots]⟩
          | notFinite =>
              exact ⟨Or.inl (by simp [fill_typed_slot, float_is_integer, emptySlots]),
                fun q hq => by simp at hq⟩
      | empty => exact ⟨Or.inl rfl, fun q hq => by simp at hq⟩
      | string s => exact ⟨Or.inl rfl, fun q hq => by simp at hq⟩
      | bool b => exact ⟨Or.inl rfl, fun q hq => by simp at hq⟩
      | other r => exact ⟨Or.inl rfl, fun q hq => by simp at hq⟩

/-- C4: in the bulk-append loop every column typed `Int` receives, for every
data row (the loop runs over all rows, not only the 200-row inference prefix),
either NULL or a value within the `i64` range; and a float cell with a
non-zero fractional part never enters an `Int` column (its slot is NULL). -/
theorem int_column_soundness :
    ∀ (types : List ColType) (row : List Data) (i : Nat) (s : Slots),
      rowWF row →
      types[i]? = some ColType.Int →
      (row_slots types row)[i]? = some s →
      (s.i64 = none ∨ ∃ n : Int, s.i64 = some n ∧ i64Min ≤ n ∧ n ≤ i64Max)
      ∧ (∀ q : ℚ, row[i]? = some (Data.float (FloatV.finite q)) → q.den ≠ 1 →
          s.i64 = none) := by
  intro types
  induction types with
  | nil => intro row i s _ hty; simp at hty
  | cons t ts ih =>
      intro row i s hwf hty hslot
      cases row with
      | nil =>
          cases i with
          | zero =>
              simp only [List.getElem?_cons_zero, Option.some_inj] at hty
              simp only [row_slots, List.getElem?_cons_zero, Option.some_inj] at hslot
              subst hty
              subst hslot
              refine ⟨(fill_int_slot_cases none (by simp)).1, fun q hq => by simp at hq⟩
          | succ n =>
              simp only [List.getElem?_cons_succ] at hty
              simp only [row_slots, List.getElem?_cons_succ] at hslot
              exact ih [] n s hwf hty hslot
      | cons c cs =>
          cases i with
          | zero =>
              simp only [List.getElem?_cons_zero, Option.some_inj] at hty
              simp only [row_slots, List.getElem?_cons_zero, Option.some_inj] at hslot
              subst hty
              subst hslot
              have hwfc : ∀ v, (some c : Option Data) = some v → dataWF v := by
                intro v hv
                have hmem := hwf c (List.mem_cons_self c cs)
                obtain rfl : v = c := by simpa using hv.symm
                exact hmem
              refine ⟨(fill_int_slot_cases (some c) hwfc).1, ?_⟩
              intro q hq hden
              have hc : (some c : Option Data) = some (Data.float (FloatV.finite q)) := by
                simpa using hq
              exact (fill_int_slot_cases (some c) hwfc).2 q hc hden
          | succ n =>
              simp only [List.getElem?_cons_succ] at hty ⊢
              simp only [row_slots, List.getElem?_cons_succ] at hslot
              have hwfcs : rowWF cs := fun v hv => hwf v (List.mem_cons_of_mem c hv)
              exact ih cs n s hwfcs hty hslot

/-! ## Claim C3: header sanitization and deduplication -/

theorem dedupGo_getElem? (cols : List String) (seen : String → Nat) (i : Nat) :
    (dedupGo seen cols)[i]? = (cols[i]?).map fun c =>
      let k := seen c + countOcc c (cols.take i)
      if 0 < k then c ++ "_" ++ Nat.repr k else c := by
  induction cols generalizing seen i with
  | nil => simp [dedupGo]
  | cons c rest ih =>
      cases i with
      | zero => simp [dedupGo, countOcc]
      | succ n =>
          simp only [dedupGo, List.getElem?_cons_succ, List.take_succ_cons]
          rw [ih]
          cases h : rest[n]? with
          | none => simp
          | some c2 =>
              simp only [Option.map_some']
              have hk : (if c2 = c then seen c + 1 else seen c2) + countOcc c2 (rest.take n)
                  = seen c2 + countOcc c2 (c :: rest.take n) := by
                by_cases hc : c2 = c
                · subst hc
                  simp [countOcc]
                  omega
                · have hcc : ¬ c = c2 := fun hcc => hc hcc.symm
                  simp [countOcc, hc, hcc]
              simp only [hk]

/-- C3, counterexample.  The claim states post-dedup column names are pairwise
distinct and the position-to-name mapping injective.  The dedup pass
(src/extract_orders.rs:287-298) only counts repeats of the same original name,
so a renamed duplicate can collide with a different original header: the
header texts `a, a_1, a` produce the final names `a, a_1, a_1`, which are not
pairwise distinct. -/
theorem header_dedup_collision :
    headerFinalNames ["a", "a_1", "a"] = ["a", "a_1", "a_1"]
      ∧ ¬ (headerFinalNames ["a", "a_1", "a"]).Nodup := by
  constructor
  · decide
  · decide

/-- C3, amended: after empty header cells are named `col_<i>` and names are
sanitized, the dedup pass maps the header at position `i` to its sanitized
name when it is the first occurrence of that name, and to the name with `_<k>`
appended when it is the `k`-th repeat occurrence; the resulting names are not
guaranteed pairwise distinct across different original names. -/
theorem header_dedup_characterization :
    ∀ (texts : List String) (i : Nat),
      (headerFinalNames texts)[i]? = ((headerCols texts)[i]?).map fun c =>
        let k := countOcc c ((headerCols texts).take i)
        if 0 < k then c ++ "_" ++ Nat.repr k else c := by
  intro texts i
  unfold headerFinalNames dedupNames
  rw [dedupGo_getElem?]
  simp

/-- C4, witness: a concrete row with an in-range integer cell in an `Int`
column. -/
theorem int_column_soundness_witness :
    ((Slots.i64 ⟨"", some 5, none, none⟩ = none ∨
        ∃ n : Int, Slots.i64 ⟨"", some 5, none, none⟩ = some n ∧
          i64Min ≤ n ∧ n ≤ i64Max)
      ∧ (∀ q : ℚ, ([Data.int 5] : List Data)[0]? =
            some (Data.float (FloatV.finite q)) → q.den ≠ 1 →
          Slots.i64 ⟨"", some 5, none, none⟩ = none)) :=
  int_column_soundness [ColType.Int] [Data.int 5] 0 ⟨"", some 5, none, none⟩
    (by intro v hv
        simp only [List.mem_singleton] at hv
        subst hv
        norm_num [dataWF, i64Min, i64Max])
    rfl rfl

/-! ## Claim C9: a failed Single extraction leaves the prior state intact -/

/-- C9: in Single mode, when the run does not take the no-change fast path and
the extraction of the selected newest file fails, the run returns an error and
the state is exactly the initial one: the `current_parquet.txt` pointer, the
set of parquet files in `single/`, and the persisted manifest are unchanged
(the error propagates before any of them is written or deleted,
src/app.rs:180-192). -/
theorem single_extraction_failure_preserves_state :
    ∀ (ds : String) (stamps : List FileStamp) (prev : Option CacheMeta)
      (st0 : SingleState) (restat : Option FileStamp) (nm : FileStamp → String),
      ¬((diff_files prev ds RunMode.Single stamps).2 = []
          ∧ single_parquet_missing st0 = false) →
      extract_single_model ds stamps prev st0 restat false nm = (false, st0) := by
  intro ds stamps prev st0 restat nm h
  have hcond : ((diff_files prev ds RunMode.Single stamps).2.isEmpty
      && !single_parquet_missing st0) = false := by
    by_cases h1 : (diff_files prev ds RunMode.Single stamps).2 = []
    · have h2 : single_parquet_missing st0 = true := by
        cases h3 : single_parquet_missing st0 with
        | false => exact absurd ⟨h1, h3⟩ h
        | true => rfl
      simp [h2]
    · simp [List.isEmpty_eq_true, h1]
  simp only [extract_single_model, hcond, Bool.false_eq_true, if_false]
  cases restat with
  | none => rfl
  | some st => simp

/-- C9, witness: a fresh state with one never-seen stamp (so the diff is
non-empty), a failing extractor, and the unchanged state as the result. -/
theorem single_extraction_failure_witness :
    ¬((diff_files none "ds" RunMode.Single [⟨"p", 1, 0, "h"⟩]).2 = []
        ∧ single_parquet_missing ⟨none, [], none⟩ = false)
      ∧ extract_single_model "ds" [⟨"p", 1, 0, "h"⟩] none ⟨none, [], none⟩ none false
          (fun st => st.path ++ ".parquet") = (false, ⟨none, [], none⟩) :=
  ⟨by decide,
    single_extraction_failure_preserves_state "ds" [⟨"p", 1, 0, "h"⟩] none
      ⟨none, [], none⟩ none (fun st => st.path ++ ".parquet") (by decide)⟩

/-! ## Claim C8: process exit codes -/

theorem runMulti_retOk_eq (prev : Option CacheMeta) (ds : String)
    (stamps : List FileStamp) (map0 : List (String × String)) (disk0 : List String)
    (me : Bool) (ex : String → Bool) (nm : FileStamp → String) :
    (runMulti prev ds stamps map0 disk0 me ex nm).retOk
      = (runMulti prev ds stamps map0 disk0 me ex nm).failList.isEmpty := by
  by_cases h : ((diff_files prev ds RunMode.Multi stamps).2.isEmpty
      && multi_outputs_ok (prev.isSome || me) true (cleanup prev stamps map0 disk0).1
          (cleanup prev stamps map0 disk0).2 stamps) = true
  · simp [runMulti, h]
  · simp [runMulti, h]

/-- C8, counterexample.  The claim states a partially successful Multi run
exits with code 2, distinct from the fatal-error code 1.  `extract_multi`
returns `Err` when any file failed (src/app.rs:406-409) and `main` returns
that `anyhow::Result` directly (src/main.rs:61-118), so the process exits
with code 1, the same code as a fatal error; no path produces exit code 2.
Here a two-file run in which one extraction fails exits with code 1. -/
theorem partial_failure_exit_code_is_one :
    (runMulti none "ds" [⟨"a", 1, 0, "ha"⟩, ⟨"b", 2, 0, "hb"⟩] [] [] false
        (fun p => p == "a") (fun st => st.path ++ ".parquet")).failList = ["b"]
      ∧ processExitCode
          (runMulti none "ds" [⟨"a", 1, 0, "ha"⟩, ⟨"b", 2, 0, "hb"⟩] [] [] false
              (fun p => p == "a") (fun st => st.path ++ ".parquet")).retOk = 1
      ∧ processExitCode
          (runMulti none "ds" [⟨"a", 1, 0, "ha"⟩, ⟨"b", 2, 0, "hb"⟩] [] [] false
              (fun p => p == "a") (fun st => st.path ++ ".parquet")).retOk ≠ 2 := by
  refine ⟨by decide, by decide, by decide⟩

/-- C8, amended: the exit code is 0 when the run fully succeeds and 1 both on
fatal orchestration errors and on completion with at least one extractor
failure; no run exits with code 2. -/
theorem process_exit_code_values :
    ∀ (prev : Option CacheMeta) (ds : String) (stamps : List FileStamp)
      (map0 : List (String × String)) (disk0 : List String) (me : Bool)
      (ex : String → Bool) (nm : FileStamp → String),
      ((runMulti prev ds stamps map0 disk0 me ex nm).failList = [] →
        processExitCode (runMulti prev ds stamps map0 disk0 me ex nm).retOk = 0)
      ∧ ((runMulti prev ds stamps map0 disk0 me ex nm).failList ≠ [] →
        processExitCode (runMulti prev ds stamps map0 disk0 me ex nm).retOk = 1)
      ∧ ∀ b : Bool, processExitCode b ≠ 2 := by
  intro prev ds stamps map0 disk0 me ex nm
  rw [runMulti_retOk_eq]
  cases hf : (runMulti prev ds stamps map0 disk0 me ex nm).failList with
  | nil => exact ⟨fun _ => rfl, fun hne => absurd rfl hne, fun b => by cases b <;> decide⟩
  | cons x rest =>
      refine ⟨fun hc => by simp at hc, fun _ => rfl, fun b => by cases b <;> decide⟩

/-- C8, witness: the amended theorem applied to a fully successful concrete
run (exit code 0) — the hypothesis `failList = []` is discharged by
evaluation. -/
theorem process_exit_code_witness :
    processExitCode
      (runMulti none "ds" [⟨"a", 1, 0, "ha"⟩] [] [] false (fun _ => true)
          (fun st => st.path ++ ".parquet")).retOk = 0 :=
  (process_exit_code_values none "ds" [⟨"a", 1, 0, "ha"⟩] [] [] false (fun _ => true)
      (fun st => st.path ++ ".parquet")).1 (by decide)

/-! ## Claim C1: what the Multi run persists after a partial failure -/

theorem mapRemove_lookup_none_preserved {α : Type} (p k : String) (m : List (String × α))
    (h : mapLookup p m = none) : mapLookup p (mapRemove k m).2 = none := by
  by_cases hpk : p = k
  · subst hpk
    have h1 : (mapRemove p m).1 = none := by rw [mapRemove_fst]; exact h
    rw [mapRemove_none_eq p m h1]
    exact h
  · rw [mapRemove_lookup_ne p k m hpk]
    exact h

theorem cleanupGo_lookup_none (cur : List String) (prevS : List (String × FileStamp))
    (p : String) :
    ∀ (m : List (String × String)) (d : List String), mapLookup p m = none →
      mapLookup p (cleanupGo cur prevS m d).1 = none := by
  induction prevS with
  | nil => intro m d h; simpa [cleanupGo] using h
  | cons e rest ih =>
      obtain ⟨k0, old⟩ := e
      intro m d h
      simp only [cleanupGo]
      split
      · exact ih m d h
      · split
        next name map2 heq =>
          have h2 : mapLookup p map2 = none := by
            have := mapRemove_lookup_none_preserved p old.path m h
            rw [heq] at this
            exact this
          exact ih map2 _ h2
        next map2 heq =>
          have h2 : mapLookup p map2 = none := by
            have := mapRemove_lookup_none_preserved p old.path m h
            rw [heq] at this
            exact this
          exact ih map2 d h2

theorem cleanup_lookup_none (prev : Option CacheMeta) (stamps : List FileStamp)
    (map0 : List (String × String)) (disk0 : List String) (p : String)
    (h : mapLookup p map0 = none) :
    mapLookup p (cleanup prev stamps map0 disk0).1 = none := by
  cases prev with
  | none => simpa [cleanup] using h
  | some pm => exact cleanupGo_lookup_none _ pm.stamps p map0 disk0 h

theorem extractLoop_lookup_none (ex : String → Bool) (nm : FileStamp → String)
    (l : List FileStamp) (p : String) (hex : ex p = false) :
    ∀ (m : List (String × String)) (d : List String), mapLookup p m = none →
      mapLookup p (extractLoop ex nm l m d).1 = none := by
  induction l with
  | nil => intro m d h; simpa [extractLoop] using h
  | cons st rest ih =>
      intro m d h
      by_cases hst : ex st.path = true
      · have hne : p ≠ st.path := by
          intro hpe
          rw [hpe] at hex
          rw [hex] at hst
          exact Bool.false_ne_true hst
        simp only [extractLoop, hst, if_true]
        exact ih _ _ (by rw [mapLookup_mapInsert_ne p st.path (nm st) m hne]; exact h)
      · simp only [Bool.not_eq_true] at hst
        simp only [extractLoop, hst, Bool.false_eq_true, if_false]
        exact ih m d h

theorem multi_outputs_ok_false_of_missing (a b : Bool) (m : List (String × String))
    (d : List String) (stamps : List FileStamp) (st : FileStamp) (hmem : st ∈ stamps)
    (h : mapLookup st.path m = none) : multi_outputs_ok a b m d stamps = false := by
  cases hval : multi_outputs_ok a b m d stamps with
  | false => rfl
  | true =>
      exfalso
      simp only [multi_outputs_ok, Bool.and_eq_true, List.all_eq_true] at hval
      have := hval.2 st hmem
      rw [h] at this
      simp at this

theorem runMulti_savedManifest (prev : Option CacheMeta) (ds : String)
    (stamps : List FileStamp) (map0 : List (String × String)) (disk0 : List String)
    (me : Bool) (ex : String → Bool) (nm : FileStamp → String) :
    (runMulti prev ds stamps map0 disk0 me ex nm).savedManifest
      = ⟨ds, RunMode.Multi, buildNextMap stamps⟩ := by
  simp only [runMulti]
  split <;> rfl

theorem runMulti_finalMap_eq (prev : Option CacheMeta) (ds : String)
    (stamps : List FileStamp) (map0 : List (String × String)) (disk0 : List String)
    (me : Bool) (ex : String → Bool) (nm : FileStamp → String) :
    (runMulti prev ds stamps map0 disk0 me ex nm).finalMap
        = (cleanup prev stamps map0 disk0).1
      ∨ (runMulti prev ds stamps map0 disk0 me ex nm).finalMap
        = (extractLoop ex nm
            (sortDesc (if (diff_files prev ds RunMode.Multi stamps).2.isEmpty then stamps
              else (diff_files prev ds RunMode.Multi stamps).2))
            (cleanup prev stamps map0 disk0).1 (cleanup prev stamps map0 disk0).2).1 := by
  simp only [runMulti]
  split
  · left; rfl
  · right; rfl

theorem runMulti_finalMap_lookup_none (prev : Option CacheMeta) (ds : String)
    (stamps : List FileStamp) (map0 : List (String × String)) (disk0 : List String)
    (me : Bool) (ex : String → Bool) (nm : FileStamp → String) (p : String)
    (hex : ex p = false) (h0 : mapLookup p map0 = none) :
    mapLookup p (runMulti prev ds stamps map0 disk0 me ex nm).finalMap = none := by
  have hclean := cleanup_lookup_none prev stamps map0 disk0 p h0
  rcases runMulti_finalMap_eq prev ds stamps map0 disk0 me ex nm with h | h
  · rw [h]; exact hclean
  · rw [h]
    exact extractLoop_lookup_none ex nm _ p hex _ _ hclean

theorem runMulti_changedEff_of_gate_false (prev : Option CacheMeta) (ds : String)
    (stamps : List FileStamp) (map0 : List (String × String)) (disk0 : List String)
    (me : Bool) (ex : String → Bool) (nm : FileStamp → String)
    (hchanged : (diff_files prev ds RunMode.Multi stamps).2 = [])
    (hgate : multi_outputs_ok (prev.isSome || me) true (cleanup prev stamps map0 disk0).1
        (cleanup prev stamps map0 disk0).2 stamps = false) :
    (runMulti prev ds stamps map0 disk0 me ex nm).changedEff = stamps := by
  simp only [runMulti]
  rw [hchanged]
  simp [hgate]

/-- C1, counterexample.  The claim states that after a Multi run with a
failure the persisted manifest omits the stamps of failed files and that the
next run's diff therefore marks them changed.  `extract_multi` saves the
`next` manifest computed by `diff_files` before any extraction
(src/app.rs:237) unconditionally after the phases (src/app.rs:392), so the
failed file's stamp is in the persisted manifest and the next run's diff is
empty. -/
theorem multi_partial_failure_manifest_counterexample :
    (runMulti none "ds" [⟨"a", 1, 0, "ha"⟩, ⟨"b", 2, 0, "hb"⟩] [] [] false
        (fun p => p == "a") (fun st => st.path ++ ".parquet")).failList = ["b"]
      ∧ mapLookup "b"
          (runMulti none "ds" [⟨"a", 1, 0, "ha"⟩, ⟨"b", 2, 0, "hb"⟩] [] [] false
              (fun p => p == "a") (fun st => st.path ++ ".parquet")).savedManifest.stamps
          = some ⟨"b", 2, 0, "hb"⟩
      ∧ (diff_files
            (some (runMulti none "ds" [⟨"a", 1, 0, "ha"⟩, ⟨"b", 2, 0, "hb"⟩] [] [] false
                (fun p => p == "a") (fun st => st.path ++ ".parquet")).savedManifest)
            "ds" RunMode.Multi [⟨"a", 1, 0, "ha"⟩, ⟨"b", 2, 0, "hb"⟩]).2 = [] := by
  refine ⟨by decide, by decide, by decide⟩

/-- C1, amended: after a Multi run the persisted manifest records the stamps
of all scanned files, including those whose extraction failed; a failed file
(with no pre-existing map entry) has no entry in the persisted parquet map, so
the next run — whose diff is empty — fails the output-integrity gate and
forces a rebuild of all current files, which is how failed files are retried. -/
theorem multi_partial_failure_manifest_behavior :
    ∀ (prev : Option CacheMeta) (ds : String) (stamps : List FileStamp)
      (map0 : List (String × String)) (disk0 : List String) (me : Bool)
      (ex : String → Bool) (nm : FileStamp → String),
      (stamps.map FileStamp.path).Nodup →
      (∀ st ∈ stamps,
        mapLookup st.path
          (runMulti prev ds stamps map0 disk0 me ex nm).savedManifest.stamps = some st)
      ∧ (∀ st ∈ stamps, ex st.path = false → mapLookup st.path map0 = none →
          mapLookup st.path (runMulti prev ds stamps map0 disk0 me ex nm).finalMap = none
          ∧ (∀ (a b : Bool) (disk2 : List String),
              multi_outputs_ok a b
                (runMulti prev ds stamps map0 disk0 me ex nm).finalMap disk2 stamps
                = false)
          ∧ (∀ (me2 : Bool) (ex2 : String → Bool) (nm2 : FileStamp → String)
              (disk2 : List String),
              (runMulti
                  (some (runMulti prev ds stamps map0 disk0 me ex nm).savedManifest)
                  ds stamps (runMulti prev ds stamps map0 disk0 me ex nm).finalMap
                  disk2 me2 ex2 nm2).changedEff = stamps)) := by
  intro prev ds stamps map0 disk0 me ex nm hnd
  have hsaved := runMulti_savedManifest prev ds stamps map0 disk0 me ex nm
  constructor
  · intro st hst
    rw [hsaved]
    exact buildNextMap_lookup stamps hnd st hst
  · intro st hst hex h0
    have hfin := runMulti_finalMap_lookup_none prev ds stamps map0 disk0 me ex nm
      st.path hex h0
    refine ⟨hfin, ?_, ?_⟩
    · intro a b disk2
      exact multi_outputs_ok_false_of_missing a b _ disk2 stamps st hst hfin
    · intro me2 ex2 nm2 disk2
      have hchanged2 : (diff_files
          (some (runMulti prev ds stamps map0 disk0 me ex nm).savedManifest)
          ds RunMode.Multi stamps).2 = [] := by
        rw [hsaved]
        show diffChanged (prevStamps (some ⟨ds, RunMode.Multi, buildNextMap stamps⟩))
          stamps = []
        refine diffChanged_eq_nil _ stamps fun s hs => ?_
        exact stampChanged_self_eq_false _ s (buildNextMap_lookup stamps hnd s hs)
      have hclean2 : mapLookup st.path
          (cleanup (some (runMulti prev ds stamps map0 disk0 me ex nm).savedManifest)
            stamps (runMulti prev ds stamps map0 disk0 me ex nm).finalMap disk2).1
          = none :=
        cleanup_lookup_none _ stamps _ disk2 st.path hfin
      have hgate2 : multi_outputs_ok
          ((some (runMulti prev ds stamps map0 disk0 me ex nm).savedManifest).isSome
            || me2) true
          (cleanup (some (runMulti prev ds stamps map0 disk0 me ex nm).savedManifest)
            stamps (runMulti prev ds stamps map0 disk0 me ex nm).finalMap disk2).1
          (cleanup (some (runMulti prev ds stamps map0 disk0 me ex nm).savedManifest)
            stamps (runMulti prev ds stamps map0 disk0 me ex nm).finalMap disk2).2
          stamps = false :=
        multi_outputs_ok_false_of_missing _ _ _ _ stamps st hst hclean2
      exact runMulti_changedEff_of_gate_false _ ds stamps _ disk2 me2 ex2 nm2
        hchanged2 hgate2

/-- C1, witness: the amended theorem applied to the concrete two-file run in
which `b` fails — its stamp is in the saved manifest, it has no map entry,
and the follow-up run rebuilds all stamps. -/
theorem multi_partial_failure_manifest_witness :
    mapLookup "b"
        (runMulti none "ds" [⟨"a", 1, 0, "ha"⟩, ⟨"b", 2, 0, "hb"⟩] [] [] false
            (fun p => p == "a") (fun st => st.path ++ ".parquet")).savedManifest.stamps
        = some ⟨"b", 2, 0, "hb"⟩
      ∧ mapLookup "b"
          (runMulti none "ds" [⟨"a", 1, 0, "ha"⟩, ⟨"b", 2, 0, "hb"⟩] [] [] false
              (fun p => p == "a") (fun st => st.path ++ ".parquet")).finalMap = none
      ∧ (runMulti
            (some (runMulti none "ds" [⟨"a", 1, 0, "ha"⟩, ⟨"b", 2, 0, "hb"⟩] [] [] false
                (fun p => p == "a") (fun st => st.path ++ ".parquet")).savedManifest)
            "ds" [⟨"a", 1, 0, "ha"⟩, ⟨"b", 2, 0, "hb"⟩]
            (runMulti none "ds" [⟨"a", 1, 0, "ha"⟩, ⟨"b", 2, 0, "hb"⟩] [] [] false
                (fun p => p == "a") (fun st => st.path ++ ".parquet")).finalMap
            [] true (fun _ => true) (fun st => st.path)).changedEff
          = [⟨"a", 1, 0, "ha"⟩, ⟨"b", 2, 0, "hb"⟩] := by
  have h := multi_partial_failure_manifest_behavior none "ds"
    [⟨"a", 1, 0, "ha"⟩, ⟨"b", 2, 0, "hb"⟩] [] [] false
    (fun p => p == "a") (fun st => st.path ++ ".parquet") (by decide)
  have h2 := h.2 ⟨"b", 2, 0, "hb"⟩ (by decide) (by decide) (by decide)
  exact ⟨h.1 ⟨"b", 2, 0, "hb"⟩ (by decide), h2.1, h2.2.2 true (fun _ => true) (fun st => st.path) []⟩

/-! ## Claim C7: deletion handling in Multi mode -/

theorem containsStr_eq_false_iff (l : List String) (x : String) :
    containsStr l x = false ↔ x ∉ l := by
  rw [← containsStr_iff l x]
  cases containsStr l x <;> simp

theorem mapRemove_keys_nodup {α : Type} (k : String) (m : List (String × α))
    (h : (m.map Prod.fst).Nodup) : (((mapRemove k m).2).map Prod.fst).Nodup :=
  h.sublist ((mapRemove_sublist k m).map Prod.fst)

theorem mapRemove_vals_nodup {α : Type} (k : String) (m : List (String × α))
    (h : (m.map Prod.snd).Nodup) : (((mapRemove k m).2).map Prod.snd).Nodup :=
  h.sublist ((mapRemove_sublist k m).map Prod.snd)

theorem lookup_vals_nodup_ne {α : Type} (m : List (String × α)) (p q : String) (n n2 : α)
    (hvals : (m.map Prod.snd).Nodup) (hp : mapLookup p m = some n)
    (hq : mapLookup q m = some n2) (hpq : p ≠ q) : n ≠ n2 := by
  induction m with
  | nil => simp [mapLookup] at hp
  | cons e rest ih =>
      obtain ⟨k1, v1⟩ := e
      simp only [List.map_cons, List.nodup_cons] at hvals
      by_cases hp1 : p = k1
      · have hn : n = v1 := by
          rw [hp1] at hp
          simpa [mapLookup] using hp.symm
        have hq1 : q ≠ k1 := fun hq1 => hpq (hp1.trans hq1.symm)
        have hq2 : mapLookup q rest = some n2 := by
          simpa [mapLookup, hq1] using hq
        have : n2 ∈ rest.map Prod.snd := mapLookup_mem_values q rest n2 hq2
        intro hnn
        rw [hn] at hnn
        exact hvals.1 (hnn ▸ this)
      · by_cases hq1 : q = k1
        · have hn2 : n2 = v1 := by
            rw [hq1] at hq
            simpa [mapLookup] using hq.symm
          have hp2 : mapLookup p rest = some n := by
            simpa [mapLookup, hp1] using hp
          have : n ∈ rest.map Prod.snd := mapLookup_mem_values p rest n hp2
          intro hnn
          rw [hn2] at hnn
          exact hvals.1 (hnn ▸ this)
        · exact ih hvals.2 (by simpa [mapLookup, hp1] using hp)
            (by simpa [mapLookup, hq1] using hq)

theorem cleanupGo_disk_sublist (cur : List String) (prevS : List (String × FileStamp)) :
    ∀ (m : List (String × String)) (d : List String),
      ((cleanupGo cur prevS m d).2).Sublist d := by
  induction prevS with
  | nil => intro m d; simp [cleanupGo]
  | cons e rest ih =>
      obtain ⟨k0, old⟩ := e
      intro m d
      simp only [cleanupGo]
      split
      · exact ih m d
      · split
        next name map2 heq =>
          refine (ih map2 _).trans ?_
          split
          · exact listErase_sublist name d
          · exact List.Sublist.refl d
        next map2 heq => exact ih map2 d

theorem cleanupGo_lookup_frame (cur : List String) (prevS : List (String × FileStamp))
    (p : String) (hp : containsStr cur p = true) :
    ∀ (m : List (String × String)) (d : List String),
      mapLookup p (cleanupGo cur prevS m d).1 = mapLookup p m := by
  induction prevS with
  | nil => intro m d; simp [cleanupGo]
  | cons e rest ih =>
      obtain ⟨k0, old⟩ := e
      intro m d
      simp only [cleanupGo]
      split
      · exact ih m d
      · next hnc =>
          have hne : p ≠ old.path := by
            intro hpe
            rw [← hpe] at hnc
            rw [hp] at hnc
            exact hnc rfl
          split
          next name map2 heq =>
            rw [ih map2 _]
            have : map2 = (mapRemove old.path m).2 := by rw [heq]
            rw [this, mapRemove_lookup_ne p old.path m hne]
          next map2 heq =>
            rw [ih map2 d]
            have : map2 = (mapRemove old.path m).2 := by rw [heq]
            rw [this, mapRemove_lookup_ne p old.path m hne]

theorem cleanupGo_deleted_lookup_none (cur : List String)
    (prevS : List (String × FileStamp)) :
    ∀ (m : List (String × String)) (d : List String), (m.map Prod.fst).Nodup →
      ∀ e ∈ prevS, containsStr cur e.2.path = false →
        mapLookup e.2.path (cleanupGo cur prevS m d).1 = none := by
  induction prevS with
  | nil => intro m d _ e he; simp at he
  | cons e0 rest ih =>
      obtain ⟨k0, old⟩ := e0
      intro m d hkeys e he hec
      simp only [cleanupGo]
      rcases List.mem_cons.mp he with rfl | he2
      · simp only at hec ⊢
        rw [hec]
        simp only [Bool.false_eq_true, if_false]
        split
        next name map2 heq =>
          have hmap2 : map2 = (mapRemove old.path m).2 := by rw [heq]
          have hnone : mapLookup old.path map2 = none := by
            rw [hmap2]
            exact mapRemove_lookup_self old.path m hkeys
          exact cleanupGo_lookup_none cur rest old.path map2 _ hnone
        next map2 heq =>
          have hmap2 : map2 = (mapRemove old.path m).2 := by rw [heq]
          have hnone : mapLookup old.path map2 = none := by
            rw [hmap2]
            exact mapRemove_lookup_self old.path m hkeys
          exact cleanupGo_lookup_none cur rest old.path map2 d hnone
      · split
        · exact ih m d hkeys e he2 hec
        · split
          next name map2 heq =>
            have hmap2 : map2 = (mapRemove old.path m).2 := by rw [heq]
            exact ih map2 _ (hmap2 ▸ mapRemove_keys_nodup old.path m hkeys) e he2 hec
          next map2 heq =>
            have hmap2 : map2 = (mapRemove old.path m).2 := by rw [heq]
            exact ih map2 d (hmap2 ▸ mapRemove_keys_nodup old.path m hkeys) e he2 hec

theorem cleanupGo_deleted_file_removed (cur : List String)
    (prevS : List (String × FileStamp)) :
    ∀ (m : List (String × String)) (d : List String) (n : String), d.Nodup →
      ∀ e ∈ prevS, containsStr cur e.2.path = false →
        mapLookup e.2.path m = some n →
        n ∉ (cleanupGo cur prevS m d).2 := by
  induction prevS with
  | nil => intro m d n _ e he; simp at he
  | cons e0 rest ih =>
      obtain ⟨k0, old⟩ := e0
      intro m d n hdnd e he hec hlook
      simp only [cleanupGo]
      by_cases hpath : old.path = e.2.path
      · rw [hpath, hec]
        simp only [Bool.false_eq_true, if_false]
        have hfst : (mapRemove e.2.path m).1 = some n := by
          rw [mapRemove_fst]
          exact hlook
        split
        next name map2 heq =>
          have hname : name = n := by
            have := congrArg Prod.fst heq
            simp only at this
            rw [hfst] at this
            simpa using this.symm
          subst hname
          have hnotin : name ∉ (if containsStr d name then listErase name d else d) := by
            split
            next hcon => exact not_mem_listErase_self name d hdnd
            next hcon =>
              rw [← containsStr_iff d name]
              intro hx
              exact hcon hx
          intro hmem
          exact hnotin ((cleanupGo_disk_sublist cur rest map2 _).mem hmem)
        next map2 heq =>
          exfalso
          have := congrArg Prod.fst heq
          simp only at this
          rw [hfst] at this
          simp at this
      · have he2 : e ∈ rest := by
          rcases List.mem_cons.mp he with rfl | h2
          · exact absurd rfl hpath
          · exact h2
        split
        · exact ih m d n hdnd e he2 hec hlook
        · have hlook2 : mapLookup e.2.path (mapRemove old.path m).2 = some n := by
            rw [mapRemove_lookup_ne e.2.path old.path m (fun h => hpath h.symm)]
            exact hlook
          split
          next name map2 heq =>
            have hmap2 : map2 = (mapRemove old.path m).2 := by rw [heq]
            refine ih map2 _ n ?_ e he2 hec (hmap2 ▸ hlook2)
            split
            next => exact hdnd.sublist (listErase_sublist name d)
            next => exact hdnd
          next map2 heq =>
            have hmap2 : map2 = (mapRemove old.path m).2 := by rw [heq]
            exact ih map2 d n hdnd e he2 hec (hmap2 ▸ hlook2)

theorem cleanupGo_kept_file (cur : List String) (prevS : List (String × FileStamp)) :
    ∀ (m : List (String × String)) (d : List String) (p : String) (n : String),
      (m.map Prod.snd).Nodup → containsStr cur p = true →
      mapLookup p m = some n → n ∈ d →
      n ∈ (cleanupGo cur prevS m d).2 := by
  induction prevS with
  | nil => intro m d p n _ _ _ hd; simpa [cleanupGo] using hd
  | cons e0 rest ih =>
      obtain ⟨k0, old⟩ := e0
      intro m d p n hvals hp hlook hd
      simp only [cleanupGo]
      split
      · exact ih m d p n hvals hp hlook hd
      · next hnc =>
          have hne : old.path ≠ p := by
            intro hpe
            rw [hpe] at hnc
            rw [hp] at hnc
            exact hnc rfl
          split
          next name map2 heq =>
            have hmap2 : map2 = (mapRemove old.path m).2 := by rw [heq]
            have hnamelook : mapLookup old.path m = some name := by
              rw [← mapRemove_fst]
              rw [heq]
            have hname_ne : name ≠ n :=
              lookup_vals_nodup_ne m old.path p name n hvals hnamelook hlook hne
            have hlook2 : mapLookup p map2 = some n := by
              rw [hmap2, mapRemove_lookup_ne p old.path m (fun h => hne h.symm)]
              exact hlook
            have hvals2 : (map2.map Prod.snd).Nodup :=
              hmap2 ▸ mapRemove_vals_nodup old.path m hvals
            refine ih map2 _ p n hvals2 hp hlook2 ?_
            split
            next => exact mem_listErase_of_ne n name d (fun h => hname_ne h.symm) hd
            next => exact hd
          next map2 heq =>
            have hmap2 : map2 = (mapRemove old.path m).2 := by rw [heq]
            have hlook2 : mapLookup p map2 = some n := by
              rw [hmap2, mapRemove_lookup_ne p old.path m (fun h => hne h.symm)]
              exact hlook
            have hvals2 : (map2.map Prod.snd).Nodup :=
              hmap2 ▸ mapRemove_vals_nodup old.path m hvals
            exact ih map2 d p n hvals2 hp hlook2 hd

/-- C7: in Multi mode, for every path recorded in the previous manifest whose
input is absent from the current stamps, the cleanup pass removes its parquet
map entry and its on-disk parquet file, while the map entries and parquet
files of current inputs are left untouched; and a still-present input whose
stamp is unchanged is not in the changed list of the diff, so it is not
rebuilt.  The well-formedness hypotheses (unique map keys, pairwise distinct
parquet file names, no duplicate disk entries) are the invariants of
`parquet_map.tsv` and of the daily directory. -/
theorem multi_deletion_removes_and_frames :
    ∀ (pm : CacheMeta) (ds : String) (stamps : List FileStamp)
      (map0 : List (String × String)) (disk0 : List String),
      (map0.map Prod.fst).Nodup → (map0.map Prod.snd).Nodup → disk0.Nodup →
      (∀ e ∈ pm.stamps, e.2.path ∉ stamps.map FileStamp.path →
          mapLookup e.2.path (cleanup (some pm) stamps map0 disk0).1 = none
          ∧ ∀ n, mapLookup e.2.path map0 = some n →
              n ∉ (cleanup (some pm) stamps map0 disk0).2)
      ∧ (∀ st ∈ stamps,
          mapLookup st.path (cleanup (some pm) stamps map0 disk0).1
              = mapLookup st.path map0
          ∧ ∀ n, mapLookup st.path map0 = some n → n ∈ disk0 →
              n ∈ (cleanup (some pm) stamps map0 disk0).2)
      ∧ (∀ st ∈ stamps, mapLookup st.path pm.stamps = some st →
          st ∉ (diff_files (some pm) ds RunMode.Multi stamps).2) := by
  intro pm ds stamps map0 disk0 hkeys hvals hdnd
  refine ⟨?_, ?_, ?_⟩
  · intro e he hout
    have hec : containsStr (stamps.map FileStamp.path) e.2.path = false :=
      (containsStr_eq_false_iff _ _).mpr hout
    exact ⟨cleanupGo_deleted_lookup_none _ pm.stamps map0 disk0 hkeys e he hec,
      fun n hn =>
        cleanupGo_deleted_file_removed _ pm.stamps map0 disk0 n hdnd e he hec hn⟩
  · intro st hst
    have hsc : containsStr (stamps.map FileStamp.path) st.path = true :=
      (containsStr_iff _ _).mpr (List.mem_map_of_mem FileStamp.path hst)
    exact ⟨cleanupGo_lookup_frame _ pm.stamps st.path hsc map0 disk0,
      fun n hn hd => cleanupGo_kept_file _ pm.stamps map0 disk0 st.path n hvals hsc hn hd⟩
  · intro st hst hlook
    intro hmem
    have h1 := (mem_diffChanged (prevStamps (some pm)) stamps st).mp hmem
    have h2 := stampChanged_self_eq_false (prevStamps (some pm)) st hlook
    rw [h2] at h1
    exact Bool.false_ne_true h1.2

/-- C7, witness: previous manifest `{a, b}`, current input `{a}`, map and
disk holding both parquets — `b`'s entry and file are removed, `a`'s are
intact, and `a` (unchanged) is not rebuilt. -/
theorem multi_deletion_witness :
    mapLookup "b"
        (cleanup (some ⟨"ds", RunMode.Multi,
            [("a", ⟨"a", 1, 0, "ha"⟩), ("b", ⟨"b", 2, 0, "hb"⟩)]⟩)
          [⟨"a", 1, 0, "ha"⟩] [("a", "pa"), ("b", "pb")] ["pa", "pb"]).1 = none
      ∧ ("pb" ∉ (cleanup (some ⟨"ds", RunMode.Multi,
            [("a", ⟨"a", 1, 0, "ha"⟩), ("b", ⟨"b", 2, 0, "hb"⟩)]⟩)
          [⟨"a", 1, 0, "ha"⟩] [("a", "pa"), ("b", "pb")] ["pa", "pb"]).2)
      ∧ mapLookup "a"
          (cleanup (some ⟨"ds", RunMode.Multi,
              [("a", ⟨"a", 1, 0, "ha"⟩), ("b", ⟨"b", 2, 0, "hb"⟩)]⟩)
            [⟨"a", 1, 0, "ha"⟩] [("a", "pa"), ("b", "pb")] ["pa", "pb"]).1
          = mapLookup "a" [("a", "pa"), ("b", "pb")]
      ∧ ("pa" ∈ (cleanup (some ⟨"ds", RunMode.Multi,
            [("a", ⟨"a", 1, 0, "ha"⟩), ("b", ⟨"b", 2, 0, "hb"⟩)]⟩)
          [⟨"a", 1, 0, "ha"⟩] [("a", "pa"), ("b", "pb")] ["pa", "pb"]).2)
      ∧ (⟨"a", 1, 0, "ha"⟩ : FileStamp) ∉
          (diff_files (some ⟨"ds", RunMode.Multi,
              [("a", ⟨"a", 1, 0, "ha"⟩), ("b", ⟨"b", 2, 0, "hb"⟩)]⟩)
            "ds" RunMode.Multi [⟨"a", 1, 0, "ha"⟩]).2 := by
  have h := multi_deletion_removes_and_frames
    ⟨"ds", RunMode.Multi, [("a", ⟨"a", 1, 0, "ha"⟩), ("b", ⟨"b", 2, 0, "hb"⟩)]⟩
    "ds" [⟨"a", 1, 0, "ha"⟩] [("a", "pa"), ("b", "pb")] ["pa", "pb"]
    (by decide) (by decide) (by decide)
  have hdel := h.1 ("b", ⟨"b", 2, 0, "hb"⟩) (by decide) (by decide)
  have hkeep := h.2.1 ⟨"a", 1, 0, "ha"⟩ (by decide)
  have hnore := h.2.2 ⟨"a", 1, 0, "ha"⟩ (by decide) (by decide)
  exact ⟨hdel.1, hdel.2 "pb" (by decide), hkeep.1, hkeep.2 "pa" (by decide) (by decide),
    hnore⟩

end Gsm
